import Mathlib

/-!
Verification of `src/scripts/clean-exercise-database.py`.

The script loads a JSON document, deletes the four compound-exercise
categories (`interval`, `emom`, `amrap`, `circuit`) from
`exercise_database.categories` when present, recomputes
`total_exercises` as the sum of `len(exercises)` over the remaining
categories, and writes the document back, printing one log line per
removed category.

The embedding models JSON values as an inductive type whose objects are
ordered key/value lists (Python dicts preserve insertion order).
Objects produced by `json.load` have unique keys, so `del d[k]` removes
the single entry with key `k`; it is modelled as filtering out every
pair with that key, which coincides on unique-key objects.  File I/O is
modelled by a `ReadResult` that is either a read/parse failure or the
parsed document; key/type errors raised while editing are modelled with
`Except`.  Printed removal log lines are returned alongside the edited
document; the final summary block is pure reporting and is not modelled.
-/

/-- A JSON value.  Objects are ordered association lists, mirroring
Python dict insertion order. -/
inductive Json where
  | null : Json
  | bool : Bool → Json
  | num : Int → Json
  | str : String → Json
  | arr : List Json → Json
  | obj : List (String × Json) → Json

/-- First-match lookup in an object's key/value list (Python `d[k]` /
`k in d` on a dict; with unique keys the first match is the only one). -/
def lookupKv : List (String × Json) → String → Option Json
  | [], _ => none
  | (k', v) :: rest, k => if k' = k then some v else lookupKv rest k

/-- Python `d[k] = v` on a dict: replace the value in place if the key
is present, otherwise append the new pair at the end. -/
def setKv : List (String × Json) → String → Json → List (String × Json)
  | [], k, v => [(k, v)]
  | (k', v') :: rest, k, v =>
    if k' = k then (k, v) :: rest else (k', v') :: setKv rest k v

/-- Python `del d[k]` on a dict: drop the entry with key `k`, keeping
the order of the others.  Parsed JSON objects have unique keys, so
dropping every pair with key `k` matches the deletion of its single
entry. -/
def eraseKv (kvs : List (String × Json)) (k : String) : List (String × Json) :=
  kvs.filter (fun p => p.1 != k)

/-- Keys of a key/value list are pairwise distinct (true of every
object produced by `json.load`). -/
def nodupKeys : List (String × Json) → Bool
  | [] => true
  | (k, _) :: rest => (lookupKv rest k).isNone && nodupKeys rest

/-- Failure modes of the script: a missing input file, undecodable
JSON, a missing dictionary key, or an operation applied to a value of
the wrong shape (Python `TypeError`/`AttributeError`). -/
inductive CleanError where
  | fileNotFound : CleanError
  | jsonDecodeError : CleanError
  | keyError : String → CleanError
  | typeError : CleanError

/-- Python subscription `j[k]` with a string key: succeeds only on a
dict that has the key; raises `KeyError` on a dict without it and
`TypeError` on every non-dict. -/
def pyIndex (j : Json) (k : String) : Except CleanError Json :=
  match j with
  | .obj kvs =>
    match lookupKv kvs k with
    | some v => .ok v
    | none => .error (.keyError k)
  | _ => .error .typeError

/-- Python `len`: defined on JSON arrays, strings and objects, a
`TypeError` on everything else. -/
def pyLen : Json → Option Nat
  | .arr xs => some xs.length
  | .str s => some s.length
  | .obj kvs => some kvs.length
  | _ => none

/-- The `keep_categories` constant of the script.  The source defines
it but never consults it. -/
def keep_categories : List String := ["strength", "mobility", "flexibility", "cardio"]

/-- The `categories_to_remove` constant of the script, in source
order. -/
def categories_to_remove : List String := ["interval", "emom", "amrap", "circuit"]

/-- The removal log line printed for a category with its exercise
count: `Removing {category} category ({count} generic exercises)`. -/
def fmtLine (p : String × Nat) : String :=
  "Removing " ++ p.1 ++ " category (" ++ toString p.2 ++ " generic exercises)"

/-- The removal loop of the script: for each name in
`categories_to_remove`, if it is a key of `categories`, compute
`len(categories[name]['exercises'])`, print the log line, and delete
the entry.  Returns the reduced key/value list and the log lines. -/
def removeLoop : List String → List (String × Json) → List String →
    Except CleanError (List (String × Json) × List String)
  | [], cats, logs => .ok (cats, logs)
  | c :: rest, cats, logs =>
    match lookupKv cats c with
    | none => removeLoop rest cats logs
    | some v =>
      match pyIndex v "exercises" with
      | .error e => .error e
      | .ok exs =>
        match pyLen exs with
        | none => .error .typeError
        | some n => removeLoop rest (eraseKv cats c) (logs ++ [fmtLine (c, n)])

/-- The recount loop of the script: `total += len(cat['exercises'])`
over the remaining categories, starting from the accumulator. -/
def sumLoop : List (String × Json) → Nat → Except CleanError Nat
  | [], total => .ok total
  | (_, v) :: rest, total =>
    match pyIndex v "exercises" with
    | .error e => .error e
    | .ok exs =>
      match pyLen exs with
      | none => .error .typeError
      | some n => sumLoop rest (total + n)

/-- The body of `clean_exercise_database` after `json.load`: look up
`exercise_database.categories`, run the removal loop, recompute the
total, store it, and return the edited document together with the
removal log lines.  The `keepCats` parameter stands for the script's
local `keep_categories` constant, which the logic never reads. -/
def clean_exercise_database (keepCats : List String) (doc : Json) :
    Except CleanError (Json × List String) :=
  match doc with
  | .obj docKvs =>
    match lookupKv docKvs "exercise_database" with
    | none => .error (.keyError "exercise_database")
    | some edbJ =>
      match edbJ with
      | .obj edbKvs =>
        match lookupKv edbKvs "categories" with
        | none => .error (.keyError "categories")
        | some catsJ =>
          match catsJ with
          | .obj cats =>
            match removeLoop categories_to_remove cats [] with
            | .error e => .error e
            | .ok (cats2, logs) =>
              match sumLoop cats2 0 with
              | .error e => .error e
              | .ok total =>
                .ok (.obj (setKv docKvs "exercise_database"
                    (.obj (setKv (setKv edbKvs "categories" (.obj cats2))
                      "total_exercises" (.num (Int.ofNat total))))), logs)
          | _ => .error .typeError
      | _ => .error .typeError
  | _ => .error .typeError

/-- The script's transformation as actually invoked, with its own
(unused) `keep_categories` constant. -/
def cleanDoc (doc : Json) : Except CleanError (Json × List String) :=
  clean_exercise_database keep_categories doc

/-- Outcome of opening and parsing the input file: the file may be
missing, its contents may fail to decode as JSON, or a document is
obtained. -/
inductive ReadResult where
  | missingFile : ReadResult
  | invalidJson : ReadResult
  | doc : Json → ReadResult

/-- `clean_exercise_database` from the file read onward: a missing
file propagates as a not-found error and undecodable contents as a
JSON decode error, before any of the editing runs. -/
def cleanFromRead : ReadResult → Except CleanError (Json × List String)
  | .missingFile => .error .fileNotFound
  | .invalidJson => .error .jsonDecodeError
  | .doc j => cleanDoc j

/-- Length of a category object's `exercises` value, when the category
is a dict with an `exercises` entry that has a Python length. -/
def exercisesLen (v : Json) : Option Nat :=
  match v with
  | .obj kvs =>
    match lookupKv kvs "exercises" with
    | some e => pyLen e
    | none => none
  | _ => none

/-- A category value on which `len(cat['exercises'])` succeeds. -/
def goodCategory (v : Json) : Bool :=
  (exercisesLen v).isSome

/-- A category value that is a dict whose `exercises` entry is a JSON
array, the shape the data model prescribes. -/
def hasExercisesList (v : Json) : Bool :=
  match v with
  | .obj kvs =>
    match lookupKv kvs "exercises" with
    | some (.arr _) => true
    | _ => false
  | _ => false

/-- The log entry the removal loop produces for one candidate name:
present categories yield their name paired with their exercise count,
absent ones yield nothing. -/
def removalEntry (cats : List (String × Json)) (c : String) : Option (String × Nat) :=
  match lookupKv cats c with
  | none => none
  | some v =>
    match exercisesLen v with
    | none => none
    | some n => some (c, n)

/-- The name/count pairs of the categories the run removes, in
removal-list order. -/
def removedPairs (cats : List (String × Json)) : List (String × Nat) :=
  categories_to_remove.filterMap (removalEntry cats)

/-- Sum of `len(exercises)` over a category list (the specification's
derived total; categories without a measurable `exercises` contribute
nothing, a case that never arises on well-formed input). -/
def sumExercises : List (String × Json) → Nat
  | [] => 0
  | (_, v) :: rest => (exercisesLen v).getD 0 + sumExercises rest

/-- The categories surviving the removal loop: those whose key is not
in `categories_to_remove`. -/
def keptCats (cats : List (String × Json)) : List (String × Json) :=
  cats.filter (fun p => !(categories_to_remove.contains p.1))

/-- The key/value list of `doc.exercise_database`, when that nesting
exists. -/
def getEdbObj (doc : Json) : Option (List (String × Json)) :=
  match doc with
  | .obj d =>
    match lookupKv d "exercise_database" with
    | some (.obj e) => some e
    | _ => none
  | _ => none

/-- The key/value list of `doc.exercise_database.categories`, when
that nesting exists. -/
def getCatsObj (doc : Json) : Option (List (String × Json)) :=
  match getEdbObj doc with
  | some e =>
    match lookupKv e "categories" with
    | some (.obj cats) => some cats
    | _ => none
  | none => none

/-- The value stored at `doc.exercise_database.total_exercises`, when
present. -/
def getTotalVal (doc : Json) : Option Json :=
  match getEdbObj doc with
  | some e => lookupKv e "total_exercises"
  | none => none

/-- A document with the `exercise_database.categories` nesting in
which `len(cat['exercises'])` succeeds on every category object. -/
def wellFormedDoc (doc : Json) : Bool :=
  match getCatsObj doc with
  | some cats => cats.all (fun p => goodCategory p.2)
  | none => false

/-- A document whose single `strength` category holds no exercises but
whose cached `total_exercises` reads 5; no removal-set category is
present. -/
def docB : Json :=
  .obj [("exercise_database", .obj
    [("categories", .obj [("strength", .obj [("exercises", .arr [])])]),
     ("total_exercises", .num 5)])]

/-- The document `clean_exercise_database` produces from `docB`: the
categories are untouched and the total is recomputed to 0. -/
def docBout : Json :=
  .obj [("exercise_database", .obj
    [("categories", .obj [("strength", .obj [("exercises", .arr [])])]),
     ("total_exercises", .num 0)])]

/-- Scenario A input: `strength` with two exercises and `circuit` with
one. -/
def docA : Json :=
  .obj [("exercise_database", .obj
    [("categories", .obj
      [("strength", .obj [("exercises", .arr [.str "e1", .str "e2"])]),
       ("circuit", .obj [("exercises", .arr [.str "e3"])])]),
     ("total_exercises", .num 3)])]

/-- Scenario A output: `circuit` deleted, total recomputed to 2. -/
def docAout : Json :=
  .obj [("exercise_database", .obj
    [("categories", .obj
      [("strength", .obj [("exercises", .arr [.str "e1", .str "e2"])])]),
     ("total_exercises", .num 2)])]

/-- A document with the full `exercise_database.categories` nesting
whose lone category object lacks the `exercises` key. -/
def docNoEx : Json :=
  .obj [("exercise_database", .obj
    [("categories", .obj [("strength", .obj [])])])]

/-! Basic lemmas about the object operations. -/

theorem lookupKv_eq_none {l : List (String × Json)} {k : String} :
    lookupKv l k = none ↔ ∀ p ∈ l, p.1 ≠ k := by
  induction l with
  | nil => simp [lookupKv]
  | cons hd tl ih =>
    obtain ⟨k', v⟩ := hd
    by_cases hk : k' = k
    · subst hk
      simp [lookupKv]
    · simp [lookupKv, hk, ih]

theorem lookupKv_mem {l : List (String × Json)} {k : String} {v : Json}
    (h : lookupKv l k = some v) : (k, v) ∈ l := by
  induction l with
  | nil => simp [lookupKv] at h
  | cons hd tl ih =>
    obtain ⟨k', v'⟩ := hd
    by_cases hk : k' = k
    · subst hk
      simp [lookupKv] at h
      simp [h]
    · simp [lookupKv, hk] at h
      exact List.mem_cons_of_mem _ (ih h)

theorem lookupKv_isSome_of_mem {l : List (String × Json)} {k : String} {v : Json}
    (h : (k, v) ∈ l) : (lookupKv l k).isSome = true := by
  induction l with
  | nil => simp at h
  | cons hd tl ih =>
    obtain ⟨k', v'⟩ := hd
    by_cases hk : k' = k
    · simp [lookupKv, hk]
    · rcases List.mem_cons.mp h with heq | hmem
      · exact absurd (congrArg Prod.fst heq).symm hk
      · simpa [lookupKv, hk] using ih hmem

theorem lookupKv_of_nodup {l : List (String × Json)} {k : String} {v : Json}
    (hnd : nodupKeys l = true) (h : (k, v) ∈ l) : lookupKv l k = some v := by
  induction l with
  | nil => simp at h
  | cons hd tl ih =>
    obtain ⟨k', v'⟩ := hd
    simp only [nodupKeys, Bool.and_eq_true] at hnd
    rcases List.mem_cons.mp h with heq | hmem
    · have h1 : k = k' := congrArg Prod.fst heq
      have h2 : v = v' := congrArg Prod.snd heq
      subst h1; subst h2
      simp [lookupKv]
    · by_cases hk : k' = k
      · subst hk
        have := lookupKv_isSome_of_mem hmem
        rw [Option.isNone_iff_eq_none.mp hnd.1] at this
        simp at this
      · simpa [lookupKv, hk] using ih hnd.2 hmem

theorem lookup_setKv_self {l : List (String × Json)} {k : String} {v : Json} :
    lookupKv (setKv l k v) k = some v := by
  induction l with
  | nil => simp [setKv, lookupKv]
  | cons hd tl ih =>
    obtain ⟨k', v'⟩ := hd
    by_cases hk : k' = k
    · simp [setKv, hk, lookupKv]
    · simp [setKv, hk, lookupKv, ih]

theorem lookup_setKv_ne {l : List (String × Json)} {k k' : String} {v : Json}
    (hk : k' ≠ k) : lookupKv (setKv l k v) k' = lookupKv l k' := by
  have hk2 : k ≠ k' := Ne.symm hk
  induction l with
  | nil => simp [setKv, lookupKv, hk2]
  | cons hd tl ih =>
    obtain ⟨k'', v''⟩ := hd
    by_cases h2 : k'' = k
    · subst h2
      simp [setKv, lookupKv, hk2]
    · simp [setKv, h2, lookupKv, ih]

theorem setKv_of_lookup_eq {l : List (String × Json)} {k : String} {v : Json}
    (h : lookupKv l k = some v) : setKv l k v = l := by
  induction l with
  | nil => simp [lookupKv] at h
  | cons hd tl ih =>
    obtain ⟨k', v'⟩ := hd
    by_cases hk : k' = k
    · subst hk
      simp [lookupKv] at h
      simp [setKv, h]
    · simp [lookupKv, hk] at h
      simp [setKv, hk, ih h]

theorem lookup_filter_key {l : List (String × Json)} {f : String → Bool} {k : String} :
    lookupKv (l.filter (fun p => f p.1)) k =
      if f k = true then lookupKv l k else none := by
  induction l with
  | nil => simp [lookupKv]
  | cons hd tl ih =>
    obtain ⟨k', v⟩ := hd
    by_cases hk : k' = k
    · subst hk
      by_cases hf : f k' = true
      · simp [List.filter, hf, lookupKv, ih]
      · simp only [Bool.not_eq_true] at hf
        simp [List.filter, hf, lookupKv, ih]
    · by_cases hf : f k' = true
      · simp [List.filter, hf, lookupKv, hk, ih]
      · simp only [Bool.not_eq_true] at hf
        simp [List.filter, hf, lookupKv, hk, ih]

/-! Lemmas about the removal and recount loops. -/

theorem exercisesLen_some_index {v : Json} {n : Nat} (h : exercisesLen v = some n) :
    ∃ exs, pyIndex v "exercises" = .ok exs ∧ pyLen exs = some n := by
  cases v with
  | obj kvs =>
    cases hl : lookupKv kvs "exercises" with
    | none => simp [exercisesLen, hl] at h
    | some e =>
      refine ⟨e, by simp [pyIndex, hl], ?_⟩
      simpa [exercisesLen, hl] using h
  | null => simp [exercisesLen] at h
  | bool b => simp [exercisesLen] at h
  | num m => simp [exercisesLen] at h
  | str s => simp [exercisesLen] at h
  | arr xs => simp [exercisesLen] at h

theorem exercisesLen_of_index {v exs : Json} (h : pyIndex v "exercises" = .ok exs) :
    exercisesLen v = pyLen exs := by
  cases v with
  | obj kvs =>
    cases hl : lookupKv kvs "exercises" with
    | none => simp [pyIndex, hl] at h
    | some e =>
      simp [pyIndex, hl] at h
      simp [exercisesLen, hl, h]
  | null => simp [pyIndex] at h
  | bool b => simp [pyIndex] at h
  | num m => simp [pyIndex] at h
  | str s => simp [pyIndex] at h
  | arr xs => simp [pyIndex] at h

theorem lookup_eraseKv (cats : List (String × Json)) (c k : String) :
    lookupKv (eraseKv cats c) k = if k = c then none else lookupKv cats k := by
  induction cats with
  | nil => simp [eraseKv, lookupKv]
  | cons hd tl ih =>
    obtain ⟨k', v⟩ := hd
    by_cases hc : k' = c
    · subst hc
      by_cases hk : k = k'
      · simp [eraseKv, List.filter_cons, lookupKv, hk] at ih ⊢
        simpa [hk] using ih
      · simp [eraseKv, List.filter_cons, lookupKv, hk, Ne.symm hk] at ih ⊢
        exact ih
    · by_cases hk : k' = k
      · subst hk
        simp [eraseKv, List.filter_cons, hc, lookupKv, bne]
      · simp [eraseKv, List.filter_cons, hc, lookupKv, hk] at ih ⊢
        exact ih

theorem removalEntry_fst {cats : List (String × Json)} {c : String} {p : String × Nat}
    (h : removalEntry cats c = some p) : p.1 = c := by
  unfold removalEntry at h
  split at h
  · exact absurd h (by simp)
  · split at h
    · exact absurd h (by simp)
    · cases h
      rfl

theorem removalEntry_erase {cats : List (String × Json)} {c c' : String}
    (h : c' ≠ c) : removalEntry (eraseKv cats c) c' = removalEntry cats c' := by
  unfold removalEntry
  rw [lookup_eraseKv, if_neg h]

theorem filter_erase_cons (cats : List (String × Json)) (c : String) (rest : List String) :
    (eraseKv cats c).filter (fun p => !(rest.contains p.1)) =
      cats.filter (fun p => !((c :: rest).contains p.1)) := by
  unfold eraseKv
  rw [List.filter_filter]
  refine List.filter_congr (fun p hp => ?_)
  by_cases h1 : p.1 = c <;> by_cases h2 : p.1 ∈ rest <;> simp [h1, h2, bne]

theorem removeLoop_run (rcs : List String) (hnd : rcs.Nodup) :
    ∀ cats logs, (∀ c ∈ rcs, ∀ v, lookupKv cats c = some v → goodCategory v = true) →
    removeLoop rcs cats logs =
      .ok (cats.filter (fun p => !(rcs.contains p.1)),
           logs ++ (rcs.filterMap (removalEntry cats)).map fmtLine) := by
  induction rcs with
  | nil =>
    intro cats logs _
    simp [removeLoop]
  | cons c rest ih =>
    intro cats logs hgood
    obtain ⟨hc, hrest⟩ := List.nodup_cons.mp hnd
    cases hl : lookupKv cats c with
    | none =>
      have hne : ∀ p ∈ cats, p.1 ≠ c := lookupKv_eq_none.mp hl
      simp only [removeLoop, hl]
      rw [ih hrest cats logs (fun c' hm v hv => hgood c' (List.mem_cons_of_mem _ hm) v hv)]
      simp only [Except.ok.injEq, Prod.mk.injEq]
      refine ⟨?_, ?_⟩
      · exact List.filter_congr (fun p hp => by simp [hne p hp])
      · simp [List.filterMap_cons, removalEntry, hl]
    | some v =>
      have hg : goodCategory v = true := hgood c (List.mem_cons_self _ _) v hl
      have hg2 : (exercisesLen v).isSome = true := hg
      obtain ⟨n, hn⟩ := Option.isSome_iff_exists.mp hg2
      obtain ⟨exs, hex, hlen⟩ := exercisesLen_some_index hn
      simp only [removeLoop, hl, hex, hlen]
      have htrans : ∀ c' ∈ rest, ∀ v', lookupKv (eraseKv cats c) c' = some v' →
          goodCategory v' = true := by
        intro c' hm v' hv
        rw [lookup_eraseKv] at hv
        by_cases hcc : c' = c
        · simp [hcc] at hv
        · rw [if_neg hcc] at hv
          exact hgood c' (List.mem_cons_of_mem _ hm) v' hv
      rw [ih hrest (eraseKv cats c) (logs ++ [fmtLine (c, n)]) htrans]
      simp only [Except.ok.injEq, Prod.mk.injEq]
      refine ⟨?_, ?_⟩
      · exact filter_erase_cons cats c rest
      · rw [List.filterMap_congr (fun c' hm =>
          removalEntry_erase (fun heq : c' = c => hc (heq ▸ hm)))]
        have hre : removalEntry cats c = some (c, n) := by
          simp [removalEntry, hl, hn]
        simp [List.filterMap_cons, hre]

theorem removeLoop_noop (rcs : List String) :
    ∀ cats logs, (∀ c ∈ rcs, lookupKv cats c = none) →
    removeLoop rcs cats logs = .ok (cats, logs) := by
  induction rcs with
  | nil => intro cats logs _; rfl
  | cons c rest ih =>
    intro cats logs habs
    have hl : lookupKv cats c = none := habs c (List.mem_cons_self _ _)
    simp only [removeLoop, hl]
    exact ih cats logs (fun c' hm => habs c' (List.mem_cons_of_mem _ hm))

theorem removeLoop_sublist (rcs : List String) :
    ∀ cats logs cats2 logs2, removeLoop rcs cats logs = .ok (cats2, logs2) →
    cats2.Sublist cats := by
  induction rcs with
  | nil =>
    intro cats logs cats2 logs2 h
    simp only [removeLoop, Except.ok.injEq, Prod.mk.injEq] at h
    exact h.1 ▸ List.Sublist.refl cats
  | cons c rest ih =>
    intro cats logs cats2 logs2 h
    cases hl : lookupKv cats c with
    | none =>
      simp only [removeLoop, hl] at h
      exact ih cats logs cats2 logs2 h
    | some v =>
      simp only [removeLoop, hl] at h
      cases hpi : pyIndex v "exercises" with
      | error e => simp [hpi] at h
      | ok exs =>
        rw [hpi] at h
        dsimp only at h
        cases hpl : pyLen exs with
        | none => simp [hpl] at h
        | some n =>
          rw [hpl] at h
          dsimp only at h
          exact (ih _ _ _ _ h).trans (List.filter_sublist cats)

theorem lookup_none_of_sublist {cats cats2 : List (String × Json)} {c : String}
    (hsub : cats2.Sublist cats) (h : lookupKv cats c = none) :
    lookupKv cats2 c = none :=
  lookupKv_eq_none.mpr (fun p hp => lookupKv_eq_none.mp h p (hsub.subset hp))

theorem removeLoop_lookup_none (rcs : List String) :
    ∀ cats logs cats2 logs2, removeLoop rcs cats logs = .ok (cats2, logs2) →
    ∀ c ∈ rcs, lookupKv cats2 c = none := by
  induction rcs with
  | nil => intro _ _ _ _ _ c hc; simp at hc
  | cons c0 rest ih =>
    intro cats logs cats2 logs2 h c hc
    cases hl : lookupKv cats c0 with
    | none =>
      simp only [removeLoop, hl] at h
      rcases List.mem_cons.mp hc with heq | hmem
      · exact heq ▸ lookup_none_of_sublist (removeLoop_sublist rest cats logs cats2 logs2 h) hl
      · exact ih cats logs cats2 logs2 h c hmem
    | some v =>
      simp only [removeLoop, hl] at h
      cases hpi : pyIndex v "exercises" with
      | error e => simp [hpi] at h
      | ok exs =>
        rw [hpi] at h
        dsimp only at h
        cases hpl : pyLen exs with
        | none => simp [hpl] at h
        | some n =>
          rw [hpl] at h
          dsimp only at h
          rcases List.mem_cons.mp hc with heq | hmem
          · subst heq
            have he : lookupKv (eraseKv cats c) c = none := by
              rw [lookup_eraseKv, if_pos rfl]
            exact lookup_none_of_sublist (removeLoop_sublist rest _ _ _ _ h) he
          · exact ih _ _ _ _ h c hmem

theorem removeLoop_lookup_kept (rcs : List String) :
    ∀ cats logs cats2 logs2, removeLoop rcs cats logs = .ok (cats2, logs2) →
    ∀ k, ¬ k ∈ rcs → lookupKv cats2 k = lookupKv cats k := by
  induction rcs with
  | nil =>
    intro cats logs cats2 logs2 h k _
    simp only [removeLoop, Except.ok.injEq, Prod.mk.injEq] at h
    rw [h.1]
  | cons c0 rest ih =>
    intro cats logs cats2 logs2 h k hk
    have hk0 : k ≠ c0 := fun heq => hk (heq ▸ List.mem_cons_self _ _)
    have hkr : ¬ k ∈ rest := fun hm => hk (List.mem_cons_of_mem _ hm)
    cases hl : lookupKv cats c0 with
    | none =>
      simp only [removeLoop, hl] at h
      exact ih cats logs cats2 logs2 h k hkr
    | some v =>
      simp only [removeLoop, hl] at h
      cases hpi : pyIndex v "exercises" with
      | error e => simp [hpi] at h
      | ok exs =>
        rw [hpi] at h
        dsimp only at h
        cases hpl : pyLen exs with
        | none => simp [hpl] at h
        | some n =>
          rw [hpl] at h
          dsimp only at h
          rw [ih _ _ _ _ h k hkr, lookup_eraseKv, if_neg hk0]

theorem removeLoop_good_inv (rcs : List String) (hnd : rcs.Nodup) :
    ∀ cats logs cats2 logs2, removeLoop rcs cats logs = .ok (cats2, logs2) →
    ∀ c ∈ rcs, ∀ v, lookupKv cats c = some v → goodCategory v = true := by
  induction rcs with
  | nil => intro _ _ _ _ _ c hc; simp at hc
  | cons c0 rest ihg =>
    obtain ⟨hc0, hrest⟩ := List.nodup_cons.mp hnd
    intro cats logs cats2 logs2 h c hc v hv
    cases hl : lookupKv cats c0 with
    | none =>
      simp only [removeLoop, hl] at h
      rcases List.mem_cons.mp hc with heq | hmem
      · rw [heq, hl] at hv; exact absurd hv (by simp)
      · exact ihg hrest cats logs cats2 logs2 h c hmem v hv
    | some v0 =>
      simp only [removeLoop, hl] at h
      cases hpi : pyIndex v0 "exercises" with
      | error e => simp [hpi] at h
      | ok exs =>
        rw [hpi] at h
        dsimp only at h
        cases hpl : pyLen exs with
        | none => simp [hpl] at h
        | some n =>
          rw [hpl] at h
          dsimp only at h
          rcases List.mem_cons.mp hc with heq | hmem
          · subst heq
            rw [hl] at hv
            cases hv
            have : exercisesLen v = some n := by rw [exercisesLen_of_index hpi, hpl]
            simp [goodCategory, this]
          · have hne : c ≠ c0 := fun heq => hc0 (heq ▸ hmem)
            have hv2 : lookupKv (eraseKv cats c0) c = some v := by
              rw [lookup_eraseKv, if_neg hne, hv]
            exact ihg hrest _ _ _ _ h c hmem v hv2

theorem sumLoop_run :
    ∀ cats : List (String × Json), (∀ p ∈ cats, goodCategory p.2 = true) →
    ∀ t, sumLoop cats t = .ok (t + sumExercises cats) := by
  intro cats
  induction cats with
  | nil => intro _ t; simp [sumLoop, sumExercises]
  | cons hd tl ih =>
    intro hgood t
    obtain ⟨k, v⟩ := hd
    have hg : (exercisesLen v).isSome = true := hgood (k, v) (List.mem_cons_self _ _)
    obtain ⟨n, hn⟩ := Option.isSome_iff_exists.mp hg
    obtain ⟨exs, hex, hlen⟩ := exercisesLen_some_index hn
    simp only [sumLoop, hex, hlen]
    rw [ih (fun p hp => hgood p (List.mem_cons_of_mem _ hp))]
    simp only [sumExercises, hn, Option.getD_some, Except.ok.injEq]
    ring

theorem sumLoop_ok_good :
    ∀ (cats : List (String × Json)) t r, sumLoop cats t = .ok r →
    ∀ p ∈ cats, goodCategory p.2 = true := by
  intro cats
  induction cats with
  | nil => intro _ _ _ p hp; simp at hp
  | cons hd tl ih =>
    intro t r h p hp
    obtain ⟨k, v⟩ := hd
    cases hpi : pyIndex v "exercises" with
    | error e => simp [sumLoop, hpi] at h
    | ok exs =>
      simp only [sumLoop, hpi] at h
      cases hpl : pyLen exs with
      | none => simp [hpl] at h
      | some n =>
        rw [hpl] at h
        rcases List.mem_cons.mp hp with heq | hmem
        · have : exercisesLen v = some n := by rw [exercisesLen_of_index hpi, hpl]
          rw [heq]
          simp [goodCategory, this]
        · exact ih _ _ h p hmem

/-! Lemmas about the whole transformation. -/

theorem clean_ok_inversion {doc out : Json} {logs : List String}
    (h : cleanDoc doc = .ok (out, logs)) :
    ∃ d e cats cats2 total,
      doc = .obj d ∧
      lookupKv d "exercise_database" = some (.obj e) ∧
      lookupKv e "categories" = some (.obj cats) ∧
      removeLoop categories_to_remove cats [] = .ok (cats2, logs) ∧
      sumLoop cats2 0 = .ok total ∧
      out = .obj (setKv d "exercise_database"
        (.obj (setKv (setKv e "categories" (.obj cats2))
          "total_exercises" (.num (Int.ofNat total))))) := by
  unfold cleanDoc clean_exercise_database at h
  cases doc with
  | null => simp at h
  | bool b => simp at h
  | num m => simp at h
  | str s => simp at h
  | arr xs => simp at h
  | obj d =>
    dsimp only at h
    cases hl1 : lookupKv d "exercise_database" with
    | none => rw [hl1] at h; simp at h
    | some edbJ =>
      rw [hl1] at h
      dsimp only at h
      cases edbJ with
      | null => simp at h
      | bool b => simp at h
      | num m => simp at h
      | str s => simp at h
      | arr xs => simp at h
      | obj e =>
        dsimp only at h
        cases hl2 : lookupKv e "categories" with
        | none => rw [hl2] at h; simp at h
        | some catsJ =>
          rw [hl2] at h
          dsimp only at h
          cases catsJ with
          | null => simp at h
          | bool b => simp at h
          | num m => simp at h
          | str s => simp at h
          | arr xs => simp at h
          | obj cats =>
            dsimp only at h
            cases hrl : removeLoop categories_to_remove cats [] with
            | error e2 => rw [hrl] at h; simp at h
            | ok pr =>
              obtain ⟨cats2, logs2⟩ := pr
              rw [hrl] at h
              dsimp only at h
              cases hsl : sumLoop cats2 0 with
              | error e2 => rw [hsl] at h; simp at h
              | ok total =>
                rw [hsl] at h
                dsimp only at h
                simp only [Except.ok.injEq, Prod.mk.injEq] at h
                exact ⟨d, e, cats, cats2, total, rfl, hl1, hl2,
                  h.2 ▸ hrl, hsl, h.1.symm⟩

theorem clean_run {d e cats : List (String × Json)}
    (hl1 : lookupKv d "exercise_database" = some (.obj e))
    (hl2 : lookupKv e "categories" = some (.obj cats))
    (hgood : ∀ c ∈ categories_to_remove, ∀ v, lookupKv cats c = some v → goodCategory v = true)
    (hkept : ∀ p ∈ keptCats cats, goodCategory p.2 = true) :
    cleanDoc (.obj d) = .ok (.obj (setKv d "exercise_database"
      (.obj (setKv (setKv e "categories" (.obj (keptCats cats)))
        "total_exercises" (.num (Int.ofNat (sumExercises (keptCats cats))))))),
      (removedPairs cats).map fmtLine) := by
  have hnd : categories_to_remove.Nodup := by decide
  have hrl := removeLoop_run categories_to_remove hnd cats [] hgood
  have hkept2 : ∀ p ∈ cats.filter (fun p => !(categories_to_remove.contains p.1)),
      goodCategory p.2 = true := hkept
  have hsl := sumLoop_run _ hkept2 0
  unfold cleanDoc clean_exercise_database
  dsimp only
  rw [hl1]
  dsimp only
  rw [hl2]
  dsimp only
  rw [hrl]
  dsimp only
  rw [hsl]
  dsimp only
  simp [keptCats, removedPairs]

theorem getCatsObj_of {d e cats : List (String × Json)}
    (hl1 : lookupKv d "exercise_database" = some (.obj e))
    (hl2 : lookupKv e "categories" = some (.obj cats)) :
    getCatsObj (.obj d) = some cats := by
  unfold getCatsObj getEdbObj
  dsimp only
  rw [hl1]
  dsimp only
  rw [hl2]

theorem getCatsObj_unpack {doc : Json} {cats : List (String × Json)}
    (hg : getCatsObj doc = some cats) :
    ∃ d e, doc = .obj d ∧ lookupKv d "exercise_database" = some (.obj e) ∧
      lookupKv e "categories" = some (.obj cats) := by
  unfold getCatsObj getEdbObj at hg
  cases doc with
  | null => simp at hg
  | bool b => simp at hg
  | num m => simp at hg
  | str s => simp at hg
  | arr xs => simp at hg
  | obj d =>
    dsimp only at hg
    cases hl1 : lookupKv d "exercise_database" with
    | none => rw [hl1] at hg; simp at hg
    | some edbJ =>
      rw [hl1] at hg
      cases edbJ with
      | null => simp at hg
      | bool b => simp at hg
      | num m => simp at hg
      | str s => simp at hg
      | arr xs => simp at hg
      | obj e =>
        dsimp only at hg
        cases hl2 : lookupKv e "categories" with
        | none => rw [hl2] at hg; simp at hg
        | some catsJ =>
          rw [hl2] at hg
          cases catsJ with
          | null => simp at hg
          | bool b => simp at hg
          | num m => simp at hg
          | str s => simp at hg
          | arr xs => simp at hg
          | obj cats0 =>
            dsimp only at hg
            simp only [Option.some.injEq] at hg
            exact ⟨d, e, rfl, hl1, hg ▸ hl2⟩

theorem wellFormed_unpack {doc : Json} (h : wellFormedDoc doc = true) :
    ∃ d e cats, doc = .obj d ∧ lookupKv d "exercise_database" = some (.obj e) ∧
      lookupKv e "categories" = some (.obj cats) ∧ getCatsObj doc = some cats ∧
      ∀ p ∈ cats, goodCategory p.2 = true := by
  unfold wellFormedDoc at h
  cases hg : getCatsObj doc with
  | none => rw [hg] at h; simp at h
  | some cats =>
    rw [hg] at h
    dsimp only at h
    obtain ⟨d, e, hdoc, hl1, hl2⟩ := getCatsObj_unpack hg
    exact ⟨d, e, cats, hdoc, hl1, hl2, rfl,
      fun p hp => List.all_eq_true.mp h p hp⟩

theorem out_accessors (d e cats2 : List (String × Json)) (t : Json) :
    getCatsObj (.obj (setKv d "exercise_database"
        (.obj (setKv (setKv e "categories" (.obj cats2)) "total_exercises" t)))) = some cats2
    ∧ getTotalVal (.obj (setKv d "exercise_database"
        (.obj (setKv (setKv e "categories" (.obj cats2)) "total_exercises" t)))) = some t := by
  constructor
  · unfold getCatsObj getEdbObj
    dsimp only
    rw [lookup_setKv_self]
    dsimp only
    rw [lookup_setKv_ne (by decide), lookup_setKv_self]
  · unfold getTotalVal getEdbObj
    dsimp only
    rw [lookup_setKv_self]
    dsimp only
    rw [lookup_setKv_self]

/-! Claim theorems. -/

/-- C1: for every input document with the expected
`exercise_database`/`categories` nesting in which every category object
has a measurable `exercises` list, the output document's
`total_exercises` equals the sum of `len(exercises)` over the
categories remaining after the removals; the count is recomputed and
never carried over from the input (the input's `total_exercises` is
unconstrained by the hypothesis). -/
theorem c1_total_recomputed (doc : Json) (hwf : wellFormedDoc doc = true) :
    ∃ out logs cats2, cleanDoc doc = .ok (out, logs) ∧ getCatsObj out = some cats2 ∧
      getTotalVal out = some (.num (Int.ofNat (sumExercises cats2))) := by
  obtain ⟨d, e, cats, hdoc, hl1, hl2, hg, hgood⟩ := wellFormed_unpack hwf
  subst hdoc
  have hgoodr : ∀ c ∈ categories_to_remove, ∀ v, lookupKv cats c = some v →
      goodCategory v = true :=
    fun c _ v hv => hgood (c, v) (lookupKv_mem hv)
  have hkept : ∀ p ∈ keptCats cats, goodCategory p.2 = true :=
    fun p hp => hgood p (List.mem_of_mem_filter hp)
  have hrun := clean_run hl1 hl2 hgoodr hkept
  exact ⟨_, _, keptCats cats, hrun,
    (out_accessors d e (keptCats cats) _).1,
    (out_accessors d e (keptCats cats) _).2⟩

/-- Witness for C1 at the Scenario A document. -/
theorem c1_witness : wellFormedDoc docA = true ∧
    (∃ out logs cats2, cleanDoc docA = .ok (out, logs) ∧ getCatsObj out = some cats2 ∧
      getTotalVal out = some (.num (Int.ofNat (sumExercises cats2)))) :=
  ⟨rfl, c1_total_recomputed docA rfl⟩

/-- C2: whenever `clean_exercise_database` produces an output document,
none of `interval`, `emom`, `amrap`, `circuit` is a key of the output's
`categories` mapping. -/
theorem c2_removed_absent (doc out : Json) (logs : List String)
    (h : cleanDoc doc = .ok (out, logs)) (catsOut : List (String × Json))
    (hco : getCatsObj out = some catsOut) :
    ∀ c ∈ categories_to_remove, lookupKv catsOut c = none := by
  obtain ⟨d, e, cats, cats2, total, hdoc, hl1, hl2, hrl, hsl, hout⟩ := clean_ok_inversion h
  rw [hout, (out_accessors d e cats2 (.num (Int.ofNat total))).1] at hco
  obtain rfl : cats2 = catsOut := by injection hco
  exact removeLoop_lookup_none categories_to_remove cats [] _ logs hrl

/-- Witness for C2 at the Scenario A document and the key `circuit`. -/
theorem c2_witness :
    cleanDoc docA = .ok (docAout, ["Removing circuit category (1 generic exercises)"]) ∧
    getCatsObj docAout =
      some [("strength", Json.obj [("exercises", Json.arr [Json.str "e1", Json.str "e2"])])] ∧
    lookupKv [("strength", Json.obj [("exercises", Json.arr [Json.str "e1", Json.str "e2"])])]
      "circuit" = none :=
  ⟨rfl, rfl, c2_removed_absent docA docAout _ rfl _ rfl "circuit" (by decide)⟩

/-- C3: whenever `clean_exercise_database` produces an output document,
every category key outside the removal set resolves in the output's
`categories` to exactly the value it had in the input — the same
category object, hence the same `exercises` sequence with the same
elements in the same order. -/
theorem c3_frame (doc out : Json) (logs : List String)
    (h : cleanDoc doc = .ok (out, logs)) (k : String) (hk : ¬ k ∈ categories_to_remove)
    (catsIn catsOut : List (String × Json))
    (hci : getCatsObj doc = some catsIn) (hco : getCatsObj out = some catsOut) :
    lookupKv catsOut k = lookupKv catsIn k := by
  obtain ⟨d, e, cats, cats2, total, hdoc, hl1, hl2, hrl, hsl, hout⟩ := clean_ok_inversion h
  subst hdoc
  rw [getCatsObj_of hl1 hl2] at hci
  obtain rfl : cats = catsIn := by injection hci
  rw [hout, (out_accessors d e cats2 (.num (Int.ofNat total))).1] at hco
  obtain rfl : cats2 = catsOut := by injection hco
  exact removeLoop_lookup_kept categories_to_remove _ [] _ logs hrl k hk

/-- Witness for C3 at the Scenario A document and the kept key
`strength`. -/
theorem c3_witness :
    cleanDoc docA = .ok (docAout, ["Removing circuit category (1 generic exercises)"]) ∧
    ¬ "strength" ∈ categories_to_remove ∧
    lookupKv [("strength", Json.obj [("exercises", Json.arr [Json.str "e1", Json.str "e2"])])]
        "strength" =
      lookupKv [("strength", Json.obj [("exercises", Json.arr [Json.str "e1", Json.str "e2"])]),
        ("circuit", Json.obj [("exercises", Json.arr [Json.str "e3"])])] "strength" :=
  ⟨rfl, by decide, c3_frame docA docAout _ rfl "strength" (by decide) _ _ rfl rfl⟩

/-- C9: the output of `clean_exercise_database` does not depend on the
`keep_categories` constant — substituting any list whatsoever for it
yields the identical result on every document, so only the denylist
`categories_to_remove` determines what is deleted. -/
theorem c9_keep_categories_unused (ks1 ks2 : List String) (doc : Json) :
    clean_exercise_database ks1 doc = clean_exercise_database ks2 doc := rfl

/-- C4: the edit is idempotent — whenever `clean_exercise_database`
produces an output document, running the transformation on that output
returns the very same document (and removes nothing, so no removal
lines are logged). -/
theorem c4_idempotent (doc out : Json) (logs : List String)
    (h : cleanDoc doc = .ok (out, logs)) : cleanDoc out = .ok (out, []) := by
  obtain ⟨d, e, cats, cats2, total, hdoc, hl1, hl2, hrl, hsl, hout⟩ := clean_ok_inversion h
  have habs : ∀ c ∈ categories_to_remove, lookupKv cats2 c = none :=
    removeLoop_lookup_none categories_to_remove cats [] cats2 logs hrl
  have hrl2 : removeLoop categories_to_remove cats2 [] = .ok (cats2, []) :=
    removeLoop_noop categories_to_remove cats2 [] habs
  subst hout
  unfold cleanDoc clean_exercise_database
  dsimp only
  rw [lookup_setKv_self]
  dsimp only
  rw [lookup_setKv_ne (by decide), lookup_setKv_self]
  dsimp only
  rw [hrl2]
  dsimp only
  rw [hsl]
  dsimp only
  have hE1 : setKv (setKv (setKv e "categories" (.obj cats2)) "total_exercises"
      (.num (Int.ofNat total))) "categories" (.obj cats2) =
      setKv (setKv e "categories" (.obj cats2)) "total_exercises" (.num (Int.ofNat total)) :=
    setKv_of_lookup_eq (by rw [lookup_setKv_ne (by decide), lookup_setKv_self])
  rw [hE1]
  have hE2 : setKv (setKv (setKv e "categories" (.obj cats2)) "total_exercises"
      (.num (Int.ofNat total))) "total_exercises" (.num (Int.ofNat total)) =
      setKv (setKv e "categories" (.obj cats2)) "total_exercises" (.num (Int.ofNat total)) :=
    setKv_of_lookup_eq lookup_setKv_self
  rw [hE2]
  rw [setKv_of_lookup_eq lookup_setKv_self]

/-- Witness for C4 at the Scenario A document. -/
theorem c4_witness :
    cleanDoc docA = .ok (docAout, ["Removing circuit category (1 generic exercises)"]) ∧
    cleanDoc docAout = .ok (docAout, []) :=
  ⟨rfl, c4_idempotent docA docAout _ rfl⟩

/-- C5 counterexample: `docB` contains no removal-set category and
caches `total_exercises = 5`, yet the output document stores the
recomputed value 0 — `total_exercises` is not left unchanged. -/
theorem c5_counterexample :
    getCatsObj docB = some [("strength", Json.obj [("exercises", Json.arr [])])] ∧
    (categories_to_remove.all
      (fun c => (lookupKv [("strength", Json.obj [("exercises", Json.arr [])])] c).isNone))
      = true ∧
    getTotalVal docB = some (.num 5) ∧
    cleanDoc docB = .ok (docBout, []) ∧
    getTotalVal docBout = some (.num 0) ∧
    getTotalVal docBout ≠ getTotalVal docB := by
  refine ⟨rfl, rfl, rfl, rfl, rfl, ?_⟩
  intro hcontra
  rw [show getTotalVal docBout = some (.num 0) from rfl,
      show getTotalVal docB = some (.num 5) from rfl] at hcontra
  injection hcontra with h1
  injection h1 with h2
  exact absurd h2 (by decide)

/-- C5 amended: on a well-formed input none of whose categories is in
the removal set, the output's `categories` mapping is unchanged and no
removal line is logged, but `total_exercises` is set to the recomputed
sum of the remaining exercise counts — it equals the input's cached
value only when that value already equals the sum. -/
theorem c5_amended (doc : Json) (cats : List (String × Json))
    (hwf : wellFormedDoc doc = true) (hg : getCatsObj doc = some cats)
    (habs : ∀ c ∈ categories_to_remove, lookupKv cats c = none) :
    ∃ out, cleanDoc doc = .ok (out, []) ∧ getCatsObj out = some cats ∧
      getTotalVal out = some (.num (Int.ofNat (sumExercises cats))) := by
  obtain ⟨d, e, cats0, hdoc, hl1, hl2, hg0, hgood⟩ := wellFormed_unpack hwf
  subst hdoc
  rw [hg0] at hg
  have hcc : cats = cats0 := by
    injection hg with h
    exact h.symm
  subst hcc
  have hgoodr : ∀ c ∈ categories_to_remove, ∀ v, lookupKv cats c = some v →
      goodCategory v = true :=
    fun c _ v hv => hgood (c, v) (lookupKv_mem hv)
  have hkept : ∀ p ∈ keptCats cats, goodCategory p.2 = true :=
    fun p hp => hgood p (List.mem_of_mem_filter hp)
  have hkeq : keptCats cats = cats := by
    refine List.filter_eq_self.mpr (fun p hp => ?_)
    by_cases hmem : p.1 ∈ categories_to_remove
    · have h1 := lookupKv_isSome_of_mem hp
      rw [habs p.1 hmem] at h1
      simp at h1
    · simp [hmem]
  have hnil : removedPairs cats = [] := by
    unfold removedPairs
    rw [List.filterMap_congr (fun c hc => show removalEntry cats c = (fun _ => none) c by
      simp [removalEntry, habs c hc])]
    simp
  have hrun := clean_run hl1 hl2 hgoodr hkept
  rw [hkeq, hnil] at hrun
  exact ⟨_, by simpa using hrun, (out_accessors d e cats _).1, (out_accessors d e cats _).2⟩

/-- Witness for C5 amended at `docB`. -/
theorem c5_witness : wellFormedDoc docB = true ∧
    getCatsObj docB = some [("strength", Json.obj [("exercises", Json.arr [])])] ∧
    (∀ c ∈ categories_to_remove,
      lookupKv [("strength", Json.obj [("exercises", Json.arr [])])] c = none) ∧
    (∃ out, cleanDoc docB = .ok (out, []) ∧
      getCatsObj out = some [("strength", Json.obj [("exercises", Json.arr [])])] ∧
      getTotalVal out = some (.num (Int.ofNat
        (sumExercises [("strength", Json.obj [("exercises", Json.arr [])])])))) :=
  ⟨rfl, rfl, by intro c hc; fin_cases hc <;> rfl,
    c5_amended docB _ rfl rfl (by intro c hc; fin_cases hc <;> rfl)⟩

/-- C6: on a well-formed input, a removal-set category that is absent
causes no failure — the run succeeds, its log lines are exactly those
of the present removal-set categories, and the absent name contributes
no removal entry at all. -/
theorem c6_absent_skipped (doc : Json) (cats : List (String × Json)) (c : String)
    (hwf : wellFormedDoc doc = true) (hg : getCatsObj doc = some cats)
    (hc : c ∈ categories_to_remove) (habs : lookupKv cats c = none) :
    ∃ out logs, cleanDoc doc = .ok (out, logs) ∧
      logs = (removedPairs cats).map fmtLine ∧
      ∀ n : Nat, ¬ (c, n) ∈ removedPairs cats := by
  obtain ⟨d, e, cats0, hdoc, hl1, hl2, hg0, hgood⟩ := wellFormed_unpack hwf
  subst hdoc
  rw [hg0] at hg
  have hcc : cats = cats0 := by
    injection hg with h
    exact h.symm
  subst hcc
  have hgoodr : ∀ c' ∈ categories_to_remove, ∀ v, lookupKv cats c' = some v →
      goodCategory v = true :=
    fun c' _ v hv => hgood (c', v) (lookupKv_mem hv)
  have hkept : ∀ p ∈ keptCats cats, goodCategory p.2 = true :=
    fun p hp => hgood p (List.mem_of_mem_filter hp)
  refine ⟨_, _, clean_run hl1 hl2 hgoodr hkept, rfl, fun n hmem => ?_⟩
  unfold removedPairs at hmem
  obtain ⟨c', hc', hce⟩ := List.mem_filterMap.mp hmem
  obtain rfl : c' = c := (removalEntry_fst hce).symm
  simp [removalEntry, habs] at hce

/-- Witness for C6 at `docB` and the absent removal key `circuit`. -/
theorem c6_witness : wellFormedDoc docB = true ∧
    getCatsObj docB = some [("strength", Json.obj [("exercises", Json.arr [])])] ∧
    "circuit" ∈ categories_to_remove ∧
    lookupKv [("strength", Json.obj [("exercises", Json.arr [])])] "circuit" = none ∧
    (∃ out logs, cleanDoc docB = .ok (out, logs) ∧
      logs = (removedPairs [("strength", Json.obj [("exercises", Json.arr [])])]).map fmtLine ∧
      ∀ n : Nat, ¬ ("circuit", n) ∈
        removedPairs [("strength", Json.obj [("exercises", Json.arr [])])]) :=
  ⟨rfl, rfl, by decide, rfl, c6_absent_skipped docB _ "circuit" rfl rfl (by decide) rfl⟩

/-- C7 counterexample: `docNoEx` is successfully read and has both the
`exercise_database` and `categories` keys, yet the run still fails,
with a key-access error on the `exercises` key of its category — so
the three listed conditions do not exhaust the failure cases. -/
theorem c7_counterexample :
    getCatsObj docNoEx = some [("strength", Json.obj [])] ∧
    cleanFromRead (.doc docNoEx) = .error (.keyError "exercises") :=
  ⟨rfl, rfl⟩

/-- C7 amended: a missing input file and undecodable JSON each
propagate as errors, and a document without the
`exercise_database`/`categories` nesting fails; but the full
characterization is: on a parsed document with duplicate-free category
keys, the run produces an output exactly when the document is
well-formed — in particular it also fails when some category object
lacks a measurable `exercises` entry.  On every failure the result is
an error carrying no output document. -/
theorem c7_failure_modes :
    cleanFromRead .missingFile = .error .fileNotFound ∧
    cleanFromRead .invalidJson = .error .jsonDecodeError ∧
    (∀ j : Json, getCatsObj j = none → ∃ err, cleanFromRead (.doc j) = .error err) ∧
    (∀ (j : Json) (cats : List (String × Json)), getCatsObj j = some cats →
      nodupKeys cats = true →
      ((∃ out logs, cleanFromRead (.doc j) = .ok (out, logs)) ↔ wellFormedDoc j = true)) := by
  refine ⟨rfl, rfl, ?_, ?_⟩
  · intro j hnone
    cases hres : cleanDoc j with
    | error err => exact ⟨err, hres⟩
    | ok pr =>
      obtain ⟨out, logs⟩ := pr
      obtain ⟨d, e, cats, cats2, total, hdoc, hl1, hl2, _, _, _⟩ := clean_ok_inversion hres
      subst hdoc
      rw [getCatsObj_of hl1 hl2] at hnone
      exact absurd hnone (by simp)
  · intro j cats hg hnd
    constructor
    · rintro ⟨out, logs, hok⟩
      obtain ⟨d, e, cats0, cats2, total, hdoc, hl1, hl2, hrl, hsl, hout⟩ :=
        clean_ok_inversion hok
      subst hdoc
      rw [getCatsObj_of hl1 hl2] at hg
      have hcc : cats = cats0 := by
        injection hg with h
        exact h.symm
      subst hcc
      unfold wellFormedDoc
      rw [getCatsObj_of hl1 hl2]
      dsimp only
      refine List.all_eq_true.mpr (fun p hp => ?_)
      have hkv : lookupKv cats p.1 = some p.2 := lookupKv_of_nodup hnd hp
      by_cases hc : p.1 ∈ categories_to_remove
      · exact removeLoop_good_inv categories_to_remove (by decide) cats [] cats2 logs
          hrl p.1 hc p.2 hkv
      · have hkv2 : lookupKv cats2 p.1 = some p.2 := by
          rw [removeLoop_lookup_kept categories_to_remove cats [] cats2 logs hrl p.1 hc]
          exact hkv
        exact sumLoop_ok_good cats2 0 total hsl (p.1, p.2) (lookupKv_mem hkv2)
    · intro hwf
      obtain ⟨d, e, cats0, hdoc, hl1, hl2, hg0, hgood⟩ := wellFormed_unpack hwf
      subst hdoc
      have hgoodr : ∀ c ∈ categories_to_remove, ∀ v, lookupKv cats0 c = some v →
          goodCategory v = true :=
        fun c _ v hv => hgood (c, v) (lookupKv_mem hv)
      have hkept : ∀ p ∈ keptCats cats0, goodCategory p.2 = true :=
        fun p hp => hgood p (List.mem_of_mem_filter hp)
      exact ⟨_, _, clean_run hl1 hl2 hgoodr hkept⟩

/-- Witness for C7 amended: a document without the nesting errors, and
the well-formed `docB` with duplicate-free keys succeeds. -/
theorem c7_witness :
    (∃ err, cleanFromRead (.doc (Json.num 3)) = .error err) ∧
    (∃ out logs, cleanFromRead (.doc docB) = .ok (out, logs)) :=
  ⟨c7_failure_modes.2.2.1 (Json.num 3) rfl,
   (c7_failure_modes.2.2.2 docB _ rfl rfl).mpr rfl⟩

theorem count_filterMap_zero {l : List String} {f : String → Option (String × Nat)}
    (hf : ∀ a p, f a = some p → p.1 = a) {c : String} {n : Nat} (hc : ¬ c ∈ l) :
    (l.filterMap f).count (c, n) = 0 := by
  refine List.count_eq_zero.mpr (fun hmem => ?_)
  obtain ⟨a, ha, hfa⟩ := List.mem_filterMap.mp hmem
  have h1 : c = a := hf a _ hfa
  subst h1
  exact hc ha

theorem count_filterMap_one {l : List String} (hnd : l.Nodup)
    {f : String → Option (String × Nat)} (hf : ∀ a p, f a = some p → p.1 = a)
    {c : String} {n : Nat} (hc : c ∈ l) (hfc : f c = some (c, n)) :
    (l.filterMap f).count (c, n) = 1 := by
  induction l with
  | nil => simp at hc
  | cons a l2 ih =>
    obtain ⟨ha2, hnd2⟩ := List.nodup_cons.mp hnd
    by_cases hca : c = a
    · subst hca
      rw [List.filterMap_cons, hfc]
      rw [List.count_cons_self]
      rw [count_filterMap_zero hf ha2]
    · have hcl2 : c ∈ l2 := by
        rcases List.mem_cons.mp hc with h | h
        · exact absurd h hca
        · exact h
      rw [List.filterMap_cons]
      cases hfa : f a with
      | none => exact ih hnd2 hcl2
      | some p =>
        have hpa : p.1 = a := hf a p hfa
        have hne : (c, n) ≠ p := by
          intro heq
          exact hca (hpa ▸ congrArg Prod.fst heq)
        rw [List.count_cons_of_ne hne, ih hnd2 hcl2]

/-- C8: on a well-formed input, each removal-set category that is
present with `n` exercises contributes exactly one entry `(name, n)`
to the removal log, which consists of the formatted lines of those
entries; concretely, Scenario A logs exactly
`Removing circuit category (1 generic exercises)`. -/
theorem c8_removal_log :
    (∀ (doc : Json) (cats : List (String × Json)) (c : String) (v : Json) (n : Nat),
      wellFormedDoc doc = true → getCatsObj doc = some cats →
      c ∈ categories_to_remove → lookupKv cats c = some v → exercisesLen v = some n →
      ∃ out logs, cleanDoc doc = .ok (out, logs) ∧
        logs = (removedPairs cats).map fmtLine ∧
        (removedPairs cats).count (c, n) = 1) ∧
    cleanDoc docA = .ok (docAout, ["Removing circuit category (1 generic exercises)"]) := by
  refine ⟨?_, rfl⟩
  intro doc cats c v n hwf hg hc hcl hn
  obtain ⟨d, e, cats0, hdoc, hl1, hl2, hg0, hgood⟩ := wellFormed_unpack hwf
  subst hdoc
  rw [hg0] at hg
  have hcc : cats = cats0 := by
    injection hg with h
    exact h.symm
  subst hcc
  have hgoodr : ∀ c' ∈ categories_to_remove, ∀ v', lookupKv cats c' = some v' →
      goodCategory v' = true :=
    fun c' _ v' hv => hgood (c', v') (lookupKv_mem hv)
  have hkept : ∀ p ∈ keptCats cats, goodCategory p.2 = true :=
    fun p hp => hgood p (List.mem_of_mem_filter hp)
  refine ⟨_, _, clean_run hl1 hl2 hgoodr hkept, rfl, ?_⟩
  unfold removedPairs
  refine count_filterMap_one (by decide) (fun a p h => removalEntry_fst h) hc ?_
  simp [removalEntry, hcl, hn]

/-- Witness for C8 at the Scenario A document and its `circuit`
category. -/
theorem c8_witness : wellFormedDoc docA = true ∧
    "circuit" ∈ categories_to_remove ∧
    lookupKv [("strength", Json.obj [("exercises", Json.arr [Json.str "e1", Json.str "e2"])]),
        ("circuit", Json.obj [("exercises", Json.arr [Json.str "e3"])])] "circuit" =
      some (Json.obj [("exercises", Json.arr [Json.str "e3"])]) ∧
    exercisesLen (Json.obj [("exercises", Json.arr [Json.str "e3"])]) = some 1 ∧
    (∃ out logs, cleanDoc docA = .ok (out, logs) ∧
      logs = (removedPairs [("strength", Json.obj [("exercises",
        Json.arr [Json.str "e1", Json.str "e2"])]),
        ("circuit", Json.obj [("exercises", Json.arr [Json.str "e3"])])]).map fmtLine ∧
      (removedPairs [("strength", Json.obj [("exercises",
        Json.arr [Json.str "e1", Json.str "e2"])]),
        ("circuit", Json.obj [("exercises", Json.arr [Json.str "e3"])])]).count
          ("circuit", 1) = 1) ∧
    cleanDoc docA = .ok (docAout, ["Removing circuit category (1 generic exercises)"]) :=
  ⟨rfl, by decide, rfl, rfl,
   c8_removal_log.1 docA _ "circuit" (Json.obj [("exercises", Json.arr [Json.str "e3"])]) 1
     rfl rfl (by decide) rfl rfl,
   c8_removal_log.2⟩

theorem good_of_hasList {v : Json} (h : hasExercisesList v = true) :
    goodCategory v = true := by
  cases v with
  | obj kvs =>
    cases hl : lookupKv kvs "exercises" with
    | none => simp [hasExercisesList, hl] at h
    | some e =>
      cases e with
      | arr xs => simp [goodCategory, exercisesLen, hl, pyLen]
      | null => simp [hasExercisesList, hl] at h
      | bool b => simp [hasExercisesList, hl] at h
      | num m => simp [hasExercisesList, hl] at h
      | str s => simp [hasExercisesList, hl] at h
      | obj kvs2 => simp [hasExercisesList, hl] at h
  | null => simp [hasExercisesList] at h
  | bool b => simp [hasExercisesList] at h
  | num m => simp [hasExercisesList] at h
  | str s => simp [hasExercisesList] at h
  | arr xs => simp [hasExercisesList] at h

/-- C10: every category object reached by the edit must carry the
`exercises` key — when the `exercise_database.categories` nesting is
present, the run succeeds whenever every category object has an
`exercises` array, and it fails (returning an error, so no output
document is written) whenever some present category resolves to an
object without the `exercises` key. -/
theorem c10_exercises_key :
    (∀ (doc : Json) (cats : List (String × Json)), getCatsObj doc = some cats →
      (∀ p ∈ cats, hasExercisesList p.2 = true) →
      ∃ out logs, cleanDoc doc = .ok (out, logs)) ∧
    (∀ (doc : Json) (cats kvs : List (String × Json)) (c : String),
      getCatsObj doc = some cats → lookupKv cats c = some (.obj kvs) →
      lookupKv kvs "exercises" = none →
      ∀ out logs, cleanDoc doc ≠ .ok (out, logs)) := by
  constructor
  · intro doc cats hg hlist
    obtain ⟨d, e, hdoc, hl1, hl2⟩ := getCatsObj_unpack hg
    subst hdoc
    have hgoodr : ∀ c ∈ categories_to_remove, ∀ v, lookupKv cats c = some v →
        goodCategory v = true :=
      fun c _ v hv => good_of_hasList (hlist (c, v) (lookupKv_mem hv))
    have hkept : ∀ p ∈ keptCats cats, goodCategory p.2 = true :=
      fun p hp => good_of_hasList (hlist p (List.mem_of_mem_filter hp))
    exact ⟨_, _, clean_run hl1 hl2 hgoodr hkept⟩
  · intro doc cats kvs c hg hcl hex out logs hok
    obtain ⟨d, e, cats0, cats2, total, hdoc, hl1, hl2, hrl, hsl, hout⟩ :=
      clean_ok_inversion hok
    subst hdoc
    rw [getCatsObj_of hl1 hl2] at hg
    have hcc : cats = cats0 := by
      injection hg with h
      exact h.symm
    subst hcc
    by_cases hc : c ∈ categories_to_remove
    · have hgood := removeLoop_good_inv categories_to_remove (by decide) cats [] cats2
        logs hrl c hc _ hcl
      simp [goodCategory, exercisesLen, hex] at hgood
    · have hkv2 : lookupKv cats2 c = some (.obj kvs) := by
        rw [removeLoop_lookup_kept categories_to_remove cats [] cats2 logs hrl c hc]
        exact hcl
      have hgood := sumLoop_ok_good cats2 0 total hsl (c, .obj kvs) (lookupKv_mem hkv2)
      simp [goodCategory, exercisesLen, hex] at hgood

/-- Witness for C10: the well-shaped `docB` succeeds, and `docNoEx`,
whose `strength` category object lacks `exercises`, does not produce
this (or any) output. -/
theorem c10_witness :
    (∃ out logs, cleanDoc docB = .ok (out, logs)) ∧
    cleanDoc docNoEx ≠ .ok (Json.null, []) :=
  ⟨c10_exercises_key.1 docB _ rfl (by decide),
   c10_exercises_key.2 docNoEx [("strength", Json.obj [])] [] "strength"
     rfl rfl rfl Json.null []⟩
